import Mathlib

/-!
# Verification of the SEI vote discovery and balance-validation pipeline

Shallow embedding of the core of the `gitcoin-v0ter-verifiooor` repository:
vote ingestion (`recordVote`), the end-of-period pass (`checkFinalBalances`),
multi-source balance resolution (`getSeiBalance`), vote detection
(`isVoteTransaction`, `processBlockRange`), the block-time locator
(`findStartBlock`), checkpoint persistence, balance canonicalization
(`formatSeiBalance`) and the address cache (`cache.js`).

Decimal token amounts are modelled as rationals; JS `Number.prototype.toFixed(6)`
followed by `Number(...)` is modelled as exact rounding to a multiple of
`10⁻⁶`.  Block heights and timestamps are integers (JS numbers used
integrally).  Fallible network calls are modelled as `Option`/`Except`-valued
oracles passed in as parameters.
-/

namespace SeiVoter

/-- `formatSeiBalance` from `src/utils.js`:
`Number(amount.toFixed(6))` — canonicalize a decimal amount to 6 fractional
digits.  Modelled as exact rounding of a rational to the nearest multiple of
`10⁻⁶`. -/
def formatSeiBalance (amount : ℚ) : ℚ :=
  (round (amount * 1000000) : ℚ) / 1000000

theorem formatSeiBalance_mul_int (amount : ℚ) :
    formatSeiBalance amount * 1000000 = (round (amount * 1000000) : ℚ) := by
  unfold formatSeiBalance
  field_simp

theorem formatSeiBalance_intCast (n : ℤ) :
    formatSeiBalance ((n : ℚ) / 1000000) = (n : ℚ) / 1000000 := by
  unfold formatSeiBalance
  have h : ((n : ℚ) / 1000000) * 1000000 = (n : ℚ) := by field_simp
  rw [h, round_intCast]

/-- **C9.** Balance canonicalization to 6 fractional digits is idempotent:
for every rational amount `x`,
`formatSeiBalance (formatSeiBalance x) = formatSeiBalance x`. -/
theorem formatSeiBalance_idempotent (x : ℚ) :
    formatSeiBalance (formatSeiBalance x) = formatSeiBalance x := by
  unfold formatSeiBalance
  have h : ((round (x * 1000000) : ℚ) / 1000000) * 1000000
      = ((round (x * 1000000) : ℤ) : ℚ) := by field_simp
  rw [h, round_intCast]

/-! ## Balance resolution (`getSeiBalance`, `src/walletBalances.js`)

`getSeiBalance` first consults the balance cache; on a miss it tries an array
of balance methods in sequence (Cosmos ledger API, then address translation
plus EVM lookup), returning the first that succeeds, and returns `0` if every
method fails.  Each method is modelled as an `Option ℚ` (`none` = the method
threw after exhausting its retries/fallbacks). -/

/-- The `for (const method of balanceMethods) { try ... catch { continue } }`
loop of `getSeiBalance`: first successful method wins. -/
def tryBalanceMethods : List (Option ℚ) → Option ℚ
  | [] => none
  | none :: rest => tryBalanceMethods rest
  | some b :: _ => some b

/-- `getSeiBalance` from `src/walletBalances.js`: cached value if present,
otherwise the first successful method, otherwise `0`. -/
def getSeiBalance (cached : Option ℚ) (methods : List (Option ℚ)) : ℚ :=
  match cached with
  | some b => b
  | none =>
    match tryBalanceMethods methods with
    | some b => b
    | none => 0

/-- Point-in-time validity as computed by `recordVote`
(`src/walletBalances.js` line 429):
`balanceAtVote >= minSeiRequired && balanceBeforeVote >= minSeiRequired`. -/
def pointInTimeValid (minSeiRequired balanceAtVote balanceBeforeVote : ℚ) : Bool :=
  decide (minSeiRequired ≤ balanceAtVote) && decide (minSeiRequired ≤ balanceBeforeVote)

/-- **C2.** If the cache misses and every balance-resolution method fails,
`getSeiBalance` returns exactly `0` (fail-closed), and any validity
requiring a positive minimum computed from that balance is `false`. -/
theorem getSeiBalance_all_fail (cached : Option ℚ) (methods : List (Option ℚ))
    (minSeiRequired b : ℚ)
    (hc : cached = none) (hm : ∀ m ∈ methods, m = none)
    (hmin : 0 < minSeiRequired) :
    getSeiBalance cached methods = 0 ∧
    pointInTimeValid minSeiRequired (getSeiBalance cached methods) b = false ∧
    pointInTimeValid minSeiRequired b (getSeiBalance cached methods) = false := by
  have hall : tryBalanceMethods methods = none := by
    induction methods with
    | nil => rfl
    | cons m rest ih =>
      have hm0 : m = none := hm m (List.mem_cons_self m rest)
      subst hm0
      exact ih (fun x hx => hm x (List.mem_cons_of_mem _ hx))
  have hz : getSeiBalance cached methods = 0 := by
    subst hc
    unfold getSeiBalance
    rw [hall]
  refine ⟨hz, ?_, ?_⟩ <;>
  · rw [hz]
    unfold pointInTimeValid
    simp [not_le.mpr hmin]

/-- Closed witness for `getSeiBalance_all_fail` at a concrete input. -/
theorem getSeiBalance_all_fail_witness :
    getSeiBalance none [none, none] = 0 ∧
    pointInTimeValid 100 (getSeiBalance none [none, none]) 250 = false ∧
    pointInTimeValid 100 250 (getSeiBalance none [none, none]) = false := by
  exact getSeiBalance_all_fail none [none, none] 100 250 rfl
    (by intro m hm; simp at hm; exact hm) (by norm_num)

/-- JS `String.prototype.toLowerCase()` on the ASCII strings this program
handles (hex addresses, bech32 addresses, hashes): lower-case every
character. -/
def jsToLower (s : String) : String := ⟨s.data.map Char.toLower⟩

/-- Character-list core of JS `String.prototype.startsWith`. -/
def listHasStart : List Char → List Char → Bool
  | _, [] => true
  | [], _ :: _ => false
  | c :: cs, d :: ds => c == d && listHasStart cs ds

/-- JS `String.prototype.startsWith`. -/
def strStartsWith (s p : String) : Bool := listHasStart s.data p.data

/-! ## The vote/wallet ledger (`src/walletBalances.js`)

`votes.json` is a JS `Map` from transaction hash to vote record and
`wallets.json` a `Map` from (lowercased) EVM address to wallet record, both
serialized as ordered lists of key/value pairs.  They are modelled as
association lists; `Map.get`/`Map.set` become `lookupKey`/`mapSet`
(`set` on an existing key replaces the value in place, on a fresh key appends
at the end, matching JS `Map` insertion order). -/

/-- A record of the `votes` map (`recordVote`, `src/walletBalances.js`). -/
structure Vote where
  txHash : String
  evmAddress : String
  cosmosAddress : String
  blockNumber : ℤ
  timestamp : String
  balanceAtVote : ℚ
  balanceBeforeVote : ℚ
  isValid : Bool
  finalIsValid : Option Bool
deriving DecidableEq

/-- A record of the `wallets` map (`recordVote`, `src/walletBalances.js`). -/
structure Wallet where
  evmAddress : String
  cosmosAddress : String
  balances : List (ℤ × ℚ)
  votes : List String
  finalBalance : Option ℚ
  finalBalanceValid : Option Bool
deriving DecidableEq

abbrev VotesTable := List (String × Vote)
abbrev WalletsTable := List (String × Wallet)

/-- `Map.get` on an association list: the first entry with the given key. -/
def lookupKey {κ α : Type} [DecidableEq κ] : List (κ × α) → κ → Option α
  | [], _ => none
  | p :: rest, k => if p.1 = k then some p.2 else lookupKey rest k

/-- `Map.set`: replace the value of an existing key in place, otherwise
append the new entry at the end (JS `Map` insertion order). -/
def mapSet {κ α : Type} [DecidableEq κ] (tbl : List (κ × α)) (k : κ) (v : α) :
    List (κ × α) :=
  if (lookupKey tbl k).isSome then
    tbl.map (fun p => if p.1 = k then (k, v) else p)
  else tbl ++ [(k, v)]

/-- Number of entries of an association list carrying a given key. -/
def countKey {κ α : Type} [DecidableEq κ] (tbl : List (κ × α)) (k : κ) : ℕ :=
  (tbl.filter (fun p => decide (p.1 = k))).length

theorem lookupKey_append_self {κ α : Type} [DecidableEq κ]
    (tbl : List (κ × α)) (k : κ) (v : α) (h : lookupKey tbl k = none) :
    lookupKey (tbl ++ [(k, v)]) k = some v := by
  induction tbl with
  | nil => simp [lookupKey]
  | cons p rest ih =>
    rw [lookupKey] at h
    by_cases hk : p.1 = k
    · simp [hk] at h
    · rw [List.cons_append, lookupKey, if_neg hk]
      exact ih (by rwa [if_neg hk] at h)

theorem countKey_eq_zero {κ α : Type} [DecidableEq κ]
    (tbl : List (κ × α)) (k : κ) (h : lookupKey tbl k = none) :
    countKey tbl k = 0 := by
  induction tbl with
  | nil => rfl
  | cons p rest ih =>
    rw [lookupKey] at h
    by_cases hk : p.1 = k
    · simp [hk] at h
    · rw [if_neg hk] at h
      have hrest := ih h
      simp only [countKey, List.filter_cons] at hrest ⊢
      simp [hk, hrest]

theorem countKey_append_self {κ α : Type} [DecidableEq κ]
    (tbl : List (κ × α)) (k : κ) (v : α) :
    countKey (tbl ++ [(k, v)]) k = countKey tbl k + 1 := by
  unfold countKey
  rw [List.filter_append, List.length_append]
  simp

theorem mapSet_of_lookup_none {κ α : Type} [DecidableEq κ]
    (tbl : List (κ × α)) (k : κ) (v : α) (h : lookupKey tbl k = none) :
    mapSet tbl k v = tbl ++ [(k, v)] := by
  unfold mapSet
  rw [h]
  rfl

/-- The body of `recordVote` past the `votes.has(txHash)` early return
(`src/walletBalances.js` lines 424–471): canonicalize the two balances,
compute point-in-time validity, insert the vote, lazily create the wallet,
record the two balance observations and the vote hash on the wallet. -/
def recordVoteCore (minSeiRequired : ℚ) (txHash evmAddress cosmosAddress : String)
    (blockNumber : ℤ) (timestamp : String) (balanceAtVote balanceBeforeVote : ℚ)
    (wallets : WalletsTable) (votes : VotesTable) : WalletsTable × VotesTable :=
  let evmAddr := jsToLower evmAddress
  let bAt := formatSeiBalance balanceAtVote
  let bBefore := formatSeiBalance balanceBeforeVote
  let vote : Vote :=
    { txHash := txHash, evmAddress := evmAddr, cosmosAddress := cosmosAddress,
      blockNumber := blockNumber, timestamp := timestamp,
      balanceAtVote := bAt, balanceBeforeVote := bBefore,
      isValid := pointInTimeValid minSeiRequired bAt bBefore,
      finalIsValid := none }
  let wallets₀ :=
    if (lookupKey wallets evmAddr).isSome then wallets
    else mapSet wallets evmAddr
      { evmAddress := evmAddr, cosmosAddress := cosmosAddress,
        balances := [], votes := [], finalBalance := none, finalBalanceValid := none }
  let wallets' :=
    match lookupKey wallets₀ evmAddr with
    | none => wallets₀
    | some w =>
      mapSet wallets₀ evmAddr
        { w with
          balances := mapSet (mapSet w.balances blockNumber bAt) (blockNumber - 1) bBefore,
          votes := if txHash ∈ w.votes then w.votes else w.votes ++ [txHash] }
  (wallets', mapSet votes txHash vote)

/-- `recordVote` from `src/walletBalances.js`: skip if the vote hash was
already processed, otherwise run the ingestion body. -/
def recordVote (minSeiRequired : ℚ) (txHash evmAddress cosmosAddress : String)
    (blockNumber : ℤ) (timestamp : String) (balanceAtVote balanceBeforeVote : ℚ)
    (wallets : WalletsTable) (votes : VotesTable) : WalletsTable × VotesTable :=
  if (lookupKey votes txHash).isSome then (wallets, votes)
  else recordVoteCore minSeiRequired txHash evmAddress cosmosAddress blockNumber
    timestamp balanceAtVote balanceBeforeVote wallets votes

theorem recordVoteCore_votes_lookup (minSeiRequired : ℚ)
    (txHash evmAddress cosmosAddress : String) (blockNumber : ℤ) (timestamp : String)
    (balanceAtVote balanceBeforeVote : ℚ) (wallets : WalletsTable) (votes : VotesTable)
    (h : lookupKey votes txHash = none) :
    (lookupKey (recordVoteCore minSeiRequired txHash evmAddress cosmosAddress
      blockNumber timestamp balanceAtVote balanceBeforeVote wallets votes).2
      txHash).isSome = true := by
  unfold recordVoteCore
  simp only
  rw [mapSet_of_lookup_none _ _ _ h, lookupKey_append_self _ _ _ h]
  rfl

/-- **C3.** Ingesting a vote transaction hash is idempotent: if the hash is
fresh, after `recordVote` the votes table contains exactly one record for it,
and a second `recordVote` with the same hash (whatever its other arguments)
returns both tables unchanged. -/
theorem recordVote_idempotent (minSeiRequired minSei' : ℚ)
    (txHash evmAddress cosmosAddress evm' cosmos' : String)
    (blockNumber bn' : ℤ) (timestamp ts' : String)
    (balanceAtVote balanceBeforeVote bAt' bBefore' : ℚ)
    (wallets : WalletsTable) (votes : VotesTable)
    (h : lookupKey votes txHash = none) :
    countKey (recordVote minSeiRequired txHash evmAddress cosmosAddress blockNumber
      timestamp balanceAtVote balanceBeforeVote wallets votes).2 txHash = 1 ∧
    recordVote minSei' txHash evm' cosmos' bn' ts' bAt' bBefore'
      (recordVote minSeiRequired txHash evmAddress cosmosAddress blockNumber
        timestamp balanceAtVote balanceBeforeVote wallets votes).1
      (recordVote minSeiRequired txHash evmAddress cosmosAddress blockNumber
        timestamp balanceAtVote balanceBeforeVote wallets votes).2 =
    recordVote minSeiRequired txHash evmAddress cosmosAddress blockNumber
      timestamp balanceAtVote balanceBeforeVote wallets votes := by
  have hguard : (lookupKey votes txHash).isSome = false := by rw [h]; rfl
  have hfirst : recordVote minSeiRequired txHash evmAddress cosmosAddress blockNumber
      timestamp balanceAtVote balanceBeforeVote wallets votes =
      recordVoteCore minSeiRequired txHash evmAddress cosmosAddress blockNumber
      timestamp balanceAtVote balanceBeforeVote wallets votes := by
    unfold recordVote
    rw [hguard]
    rfl
  constructor
  · rw [hfirst]
    unfold recordVoteCore
    simp only
    rw [mapSet_of_lookup_none _ _ _ h, countKey_append_self, countKey_eq_zero _ _ h]
  · rw [hfirst]
    have hsome := recordVoteCore_votes_lookup minSeiRequired txHash evmAddress
      cosmosAddress blockNumber timestamp balanceAtVote balanceBeforeVote wallets votes h
    unfold recordVote
    rw [hsome]
    rfl

/-- Closed witness for `recordVote_idempotent` at a concrete input. -/
theorem recordVote_idempotent_witness :
    countKey (recordVote 100 "0xabc" "0xAA" "sei1xyz" 1000 "t0" 150 150 [] []).2
      "0xabc" = 1 ∧
    recordVote 100 "0xabc" "0xAA" "sei1xyz" 1000 "t0" 150 150
      (recordVote 100 "0xabc" "0xAA" "sei1xyz" 1000 "t0" 150 150 [] []).1
      (recordVote 100 "0xabc" "0xAA" "sei1xyz" 1000 "t0" 150 150 [] []).2 =
    recordVote 100 "0xabc" "0xAA" "sei1xyz" 1000 "t0" 150 150 [] [] :=
  recordVote_idempotent 100 100 "0xabc" "0xAA" "sei1xyz" "0xAA" "sei1xyz"
    1000 1000 "t0" "t0" 150 150 150 150 [] [] rfl

/-! ## The end-of-period pass (`checkFinalBalances`, `src/walletBalances.js`)

For every wallet with at least one vote, resolve its balance at the final
block height; on success set `finalBalance`/`finalBalanceValid` and update
every one of its votes to `finalIsValid = isValid && finalBalanceValid`;
on a failed lookup mark the wallet `(0, false)` and set `finalIsValid = false`
on all of its votes.  The balance lookup is a parameter
`balanceLookup : String → Option ℚ` (`none` = the lookup threw). -/

/-- The `for (const txHash of wallet.votes)` update loop inside
`checkFinalBalances`: rewrite the votes whose hash belongs to the wallet. -/
def setFinalOnVotes (votes : VotesTable) (hashes : List String) (f : Vote → Vote) :
    VotesTable :=
  votes.map (fun p => if p.1 ∈ hashes then (p.1, f p.2) else p)

/-- The wallet mutation performed by one iteration of `checkFinalBalances`:
skip wallets with no votes; on success record the canonicalized final balance
and its validity, on a thrown lookup mark the wallet invalid `(0, false)`. -/
def walletResult (minSeiRequired : ℚ) (balanceLookup : String → Option ℚ)
    (w : Wallet) : Wallet :=
  if w.votes = [] then w
  else
    match balanceLookup w.cosmosAddress with
    | some b =>
      let fb := formatSeiBalance b
      { w with finalBalance := some fb,
               finalBalanceValid := some (decide (minSeiRequired ≤ fb)) }
    | none => { w with finalBalance := some 0, finalBalanceValid := some false }

/-- The votes-table mutation performed by one iteration of
`checkFinalBalances`: on success every vote of the wallet gets
`finalIsValid = isValid && finalBalanceValid`; on a thrown lookup every vote
of the wallet gets `finalIsValid = false`. -/
def checkWalletVotes (minSeiRequired : ℚ) (balanceLookup : String → Option ℚ)
    (w : Wallet) (votes : VotesTable) : VotesTable :=
  if w.votes = [] then votes
  else
    match balanceLookup w.cosmosAddress with
    | some b =>
      let fbv := decide (minSeiRequired ≤ formatSeiBalance b)
      setFinalOnVotes votes w.votes
        (fun v => { v with finalIsValid := some (v.isValid && fbv) })
    | none =>
      setFinalOnVotes votes w.votes (fun v => { v with finalIsValid := some false })

/-- The `for (const [evmAddress, wallet] of wallets.entries())` loop of
`checkFinalBalances`, threading the votes table through the iterations. -/
def checkFinalBalancesLoop (minSeiRequired : ℚ) (balanceLookup : String → Option ℚ) :
    WalletsTable → VotesTable → WalletsTable × VotesTable
  | [], votes => ([], votes)
  | (a, w) :: rest, votes =>
    let w' := walletResult minSeiRequired balanceLookup w
    let votes' := checkWalletVotes minSeiRequired balanceLookup w votes
    let r := checkFinalBalancesLoop minSeiRequired balanceLookup rest votes'
    ((a, w') :: r.1, r.2)

/-- `checkFinalBalances` from `src/walletBalances.js` (the in-memory effect;
the surrounding file load/save is the identity on the tables). -/
def checkFinalBalances (minSeiRequired : ℚ) (balanceLookup : String → Option ℚ)
    (wallets : WalletsTable) (votes : VotesTable) : WalletsTable × VotesTable :=
  checkFinalBalancesLoop minSeiRequired balanceLookup wallets votes

theorem mem_setFinalOnVotes {votes : VotesTable} {hashes : List String}
    {f : Vote → Vote} {h : String} {v : Vote}
    (hmem : (h, v) ∈ setFinalOnVotes votes hashes f) :
    ∃ v₀, (h, v₀) ∈ votes ∧
      ((h ∉ hashes ∧ v = v₀) ∨ (h ∈ hashes ∧ v = f v₀)) := by
  unfold setFinalOnVotes at hmem
  obtain ⟨⟨h₀, v₀⟩, hp, heq⟩ := List.mem_map.mp hmem
  by_cases hin : h₀ ∈ hashes
  · rw [if_pos hin] at heq
    obtain ⟨rfl, rfl⟩ := Prod.mk.injEq .. ▸ heq
    exact ⟨v₀, hp, Or.inr ⟨hin, rfl⟩⟩
  · rw [if_neg hin] at heq
    obtain ⟨rfl, rfl⟩ := Prod.mk.injEq .. ▸ heq
    exact ⟨v₀, hp, Or.inl ⟨hin, rfl⟩⟩

theorem mem_setFinalOnVotes_of_not_mem {votes : VotesTable} {hashes : List String}
    {f : Vote → Vote} {h : String} {v : Vote} (hn : h ∉ hashes) :
    (h, v) ∈ setFinalOnVotes votes hashes f ↔ (h, v) ∈ votes := by
  constructor
  · intro hmem
    obtain ⟨v₀, hp, hcase⟩ := mem_setFinalOnVotes hmem
    rcases hcase with ⟨_, rfl⟩ | ⟨hin, _⟩
    · exact hp
    · exact absurd hin hn
  · intro hmem
    unfold setFinalOnVotes
    refine List.mem_map.mpr ⟨(h, v), hmem, ?_⟩
    rw [if_neg hn]

theorem checkWalletVotes_preserve {minSeiRequired : ℚ}
    {balanceLookup : String → Option ℚ} {w : Wallet} {votes : VotesTable}
    {h : String} {v : Vote} (hn : h ∉ w.votes) :
    (h, v) ∈ checkWalletVotes minSeiRequired balanceLookup w votes ↔
      (h, v) ∈ votes := by
  unfold checkWalletVotes
  by_cases hw : w.votes = []
  · rw [if_pos hw]
  · rw [if_neg hw]
    cases balanceLookup w.cosmosAddress with
    | none => exact mem_setFinalOnVotes_of_not_mem hn
    | some b => exact mem_setFinalOnVotes_of_not_mem hn

theorem checkFinalBalancesLoop_preserve {minSeiRequired : ℚ}
    {balanceLookup : String → Option ℚ} {h : String} {v : Vote} :
    ∀ {ws : WalletsTable} {votes : VotesTable},
    (∀ p ∈ ws, h ∉ p.2.votes) →
    ((h, v) ∈ (checkFinalBalancesLoop minSeiRequired balanceLookup ws votes).2 ↔
      (h, v) ∈ votes) := by
  intro ws
  induction ws with
  | nil => intro votes _; rfl
  | cons p rest ih =>
    intro votes hall
    obtain ⟨a, w⟩ := p
    rw [checkFinalBalancesLoop]
    have hw : h ∉ w.votes := hall (a, w) (List.mem_cons_self _ _)
    have hrest : ∀ q ∈ rest, h ∉ q.2.votes :=
      fun q hq => hall q (List.mem_cons_of_mem _ hq)
    exact (ih hrest).trans (checkWalletVotes_preserve hw)

theorem checkFinalBalancesLoop_fst (minSeiRequired : ℚ)
    (balanceLookup : String → Option ℚ) :
    ∀ (ws : WalletsTable) (votes : VotesTable),
    (checkFinalBalancesLoop minSeiRequired balanceLookup ws votes).1 =
      ws.map (fun p => (p.1, walletResult minSeiRequired balanceLookup p.2)) := by
  intro ws
  induction ws with
  | nil => intro votes; rfl
  | cons p rest ih =>
    intro votes
    obtain ⟨a, w⟩ := p
    rw [checkFinalBalancesLoop, List.map_cons]
    exact congrArg _ (ih _)

/-- Any vote marked `finalIsValid = some true` by the loop either carried that
mark already, or belongs to a wallet of the list whose final balance lookup
succeeded with a canonicalized amount meeting the minimum, and is itself
point-in-time valid. -/
theorem checkFinalBalancesLoop_true_sound (minSeiRequired : ℚ)
    (balanceLookup : String → Option ℚ) :
    ∀ (ws : WalletsTable) (Q : String → Vote → Prop) (votes : VotesTable),
    (∀ h v, (h, v) ∈ votes → v.finalIsValid = some true → Q h v) →
    ∀ h v, (h, v) ∈ (checkFinalBalancesLoop minSeiRequired balanceLookup ws votes).2 →
      v.finalIsValid = some true →
      Q h v ∨ ∃ a w, (a, w) ∈ ws ∧ h ∈ w.votes ∧ v.isValid = true ∧
        ∃ b, balanceLookup w.cosmosAddress = some b ∧
          minSeiRequired ≤ formatSeiBalance b := by
  intro ws
  induction ws with
  | nil =>
    intro Q votes hQ h v hmem htrue
    exact Or.inl (hQ h v hmem htrue)
  | cons p rest ih =>
    intro Q votes hQ h v hmem htrue
    obtain ⟨a, w⟩ := p
    rw [checkFinalBalancesLoop] at hmem
    have hstep : ∀ h' v',
        (h', v') ∈ checkWalletVotes minSeiRequired balanceLookup w votes →
        v'.finalIsValid = some true →
        Q h' v' ∨ (h' ∈ w.votes ∧ v'.isValid = true ∧
          ∃ b, balanceLookup w.cosmosAddress = some b ∧
            minSeiRequired ≤ formatSeiBalance b) := by
      intro h' v' hmem' htrue'
      unfold checkWalletVotes at hmem'
      by_cases hw : w.votes = []
      · rw [if_pos hw] at hmem'
        exact Or.inl (hQ h' v' hmem' htrue')
      · rw [if_neg hw] at hmem'
        cases hb : balanceLookup w.cosmosAddress with
        | none =>
          rw [hb] at hmem'
          obtain ⟨v₀, hp, hcase⟩ := mem_setFinalOnVotes hmem'
          rcases hcase with ⟨_, rfl⟩ | ⟨_, rfl⟩
          · exact Or.inl (hQ _ _ hp htrue')
          · simp at htrue'
        | some b =>
          rw [hb] at hmem'
          obtain ⟨v₀, hp, hcase⟩ := mem_setFinalOnVotes hmem'
          rcases hcase with ⟨_, rfl⟩ | ⟨hin, rfl⟩
          · exact Or.inl (hQ _ _ hp htrue')
          · simp only [Option.some.injEq, Bool.and_eq_true, decide_eq_true_eq]
              at htrue'
            exact Or.inr ⟨hin, htrue'.1, b, rfl, htrue'.2⟩
    have := ih (fun h' v' => Q h' v' ∨ (h' ∈ w.votes ∧ v'.isValid = true ∧
        ∃ b, balanceLookup w.cosmosAddress = some b ∧
          minSeiRequired ≤ formatSeiBalance b))
      (checkWalletVotes minSeiRequired balanceLookup w votes) hstep h v hmem htrue
    rcases this with (hq | hhead) | ⟨a', w', hw', hrest⟩
    · exact Or.inl hq
    · exact Or.inr ⟨a, w, List.mem_cons_self _ _, hhead.1, hhead.2.1, hhead.2.2⟩
    · exact Or.inr ⟨a', w', List.mem_cons_of_mem _ hw', hrest⟩

/-- Hashes of two distinct wallet entries never share a vote. -/
def votesDisjoint (p q : String × Wallet) : Prop :=
  ∀ h, h ∈ p.2.votes → h ∉ q.2.votes

theorem checkFinalBalancesLoop_failure_votes (minSeiRequired : ℚ)
    (balanceLookup : String → Option ℚ) (a : String) (w : Wallet) (h : String) :
    ∀ (ws : WalletsTable) (votes : VotesTable),
    List.Pairwise votesDisjoint ws → (a, w) ∈ ws →
    balanceLookup w.cosmosAddress = none → h ∈ w.votes →
    ∀ v, (h, v) ∈ (checkFinalBalancesLoop minSeiRequired balanceLookup ws votes).2 →
      v.finalIsValid = some false := by
  intro ws
  induction ws with
  | nil => intro votes _ hmem; exact absurd hmem (List.not_mem_nil _)
  | cons p rest ih =>
    intro votes hpair hmem hfail hh v hv
    obtain ⟨a₀, w₀⟩ := p
    have hd := List.pairwise_cons.mp hpair
    rw [checkFinalBalancesLoop] at hv
    rcases List.mem_cons.mp hmem with heq | hmem'
    · obtain ⟨rfl, rfl⟩ := Prod.mk.injEq .. ▸ heq
      have hrest : ∀ q ∈ rest, h ∉ q.2.votes :=
        fun q hq => hd.1 q hq h hh
      have hv' := (checkFinalBalancesLoop_preserve hrest).mp hv
      unfold checkWalletVotes at hv'
      rw [if_neg (List.ne_nil_of_mem hh), hfail] at hv'
      obtain ⟨v₀, _, hcase⟩ := mem_setFinalOnVotes hv'
      rcases hcase with ⟨hnin, _⟩ | ⟨_, rfl⟩
      · exact absurd hh hnin
      · rfl
    · exact ih _ hd.2 hmem' hfail hh v hv

/-- **C1.** In the end-of-period pass, starting from a votes table with no
vote already finalized `true`: (i) every vote that ends with
`finalIsValid = some true` is point-in-time valid and belongs to a wallet
whose period-end balance lookup succeeded with a canonicalized amount at
least the minimum; (ii) every wallet with votes whose lookup failed is
marked `finalBalance = 0`, `finalBalanceValid = false`, and (given that no
other wallet shares its vote hashes) every one of its votes ends with
`finalIsValid = some false`. -/
theorem checkFinalBalances_finalValid_sound (minSeiRequired : ℚ)
    (balanceLookup : String → Option ℚ) (wallets : WalletsTable)
    (votes : VotesTable)
    (hnoPrior : ∀ h v, (h, v) ∈ votes → v.finalIsValid ≠ some true)
    (hdisj : List.Pairwise votesDisjoint wallets) :
    (∀ h v,
      (h, v) ∈ (checkFinalBalances minSeiRequired balanceLookup wallets votes).2 →
      v.finalIsValid = some true →
      v.isValid = true ∧ ∃ a w, (a, w) ∈ wallets ∧ h ∈ w.votes ∧
        ∃ b, balanceLookup w.cosmosAddress = some b ∧
          minSeiRequired ≤ formatSeiBalance b) ∧
    (∀ a w, (a, w) ∈ wallets → balanceLookup w.cosmosAddress = none →
      w.votes ≠ [] →
      (a, { w with finalBalance := some 0, finalBalanceValid := some false }) ∈
        (checkFinalBalances minSeiRequired balanceLookup wallets votes).1 ∧
      ∀ h v, h ∈ w.votes →
        (h, v) ∈ (checkFinalBalances minSeiRequired balanceLookup wallets votes).2 →
        v.finalIsValid = some false) := by
  constructor
  · intro h v hmem htrue
    have := checkFinalBalancesLoop_true_sound minSeiRequired balanceLookup wallets
      (fun _ _ => False) votes
      (fun h' v' hv' ht' => (hnoPrior h' v' hv') ht') h v hmem htrue
    rcases this with hfalse | ⟨a, w, hw, hh, hvalid, b, hb, hle⟩
    · exact absurd hfalse not_false
    · exact ⟨hvalid, a, w, hw, hh, b, hb, hle⟩
  · intro a w hmem hfail hne
    constructor
    · rw [checkFinalBalances, checkFinalBalancesLoop_fst]
      refine List.mem_map.mpr ⟨(a, w), hmem, ?_⟩
      simp only [walletResult, if_neg hne, hfail]
    · intro h v hh hv
      exact checkFinalBalancesLoop_failure_votes minSeiRequired balanceLookup
        a w h wallets votes hdisj hmem hfail hh v hv

/-- A concrete wallet used to witness `checkFinalBalances_finalValid_sound`. -/
def sampleWalletC1 : Wallet where
  evmAddress := "0xaa"
  cosmosAddress := "sei1xyz"
  balances := []
  votes := ["0xabc"]
  finalBalance := none
  finalBalanceValid := none

/-- A concrete vote used to witness `checkFinalBalances_finalValid_sound`. -/
def sampleVoteC1 : Vote where
  txHash := "0xabc"
  evmAddress := "0xaa"
  cosmosAddress := "sei1xyz"
  blockNumber := 1000
  timestamp := "t0"
  balanceAtVote := 150
  balanceBeforeVote := 150
  isValid := true
  finalIsValid := none

/-- Closed witness for `checkFinalBalances_finalValid_sound`: one wallet with
one vote whose period-end lookup throws gets marked `(0, false)`. -/
theorem checkFinalBalances_finalValid_sound_witness :
    ("0xaa", { sampleWalletC1 with
                 finalBalance := some 0, finalBalanceValid := some false }) ∈
      (checkFinalBalances 100 (fun _ => none)
        [("0xaa", sampleWalletC1)] [("0xabc", sampleVoteC1)]).1 := by
  have hmain := checkFinalBalances_finalValid_sound 100 (fun _ => none)
    [("0xaa", sampleWalletC1)] [("0xabc", sampleVoteC1)]
    (by intro h v hv
        rw [List.mem_singleton, Prod.ext_iff] at hv
        have h2 : v = sampleVoteC1 := hv.2
        rw [h2]
        decide)
    (List.pairwise_singleton _ _)
  exact (hmain.2 "0xaa" sampleWalletC1 (List.mem_singleton.mpr rfl) rfl
    (by decide)).1

/-! ## Vote detection (`src/blockScanner.js`)

`isVoteTransaction` classifies a (transaction, receipt) pair as a vote when
any of four independent signals fires; `processBlockRange` filters a block's
transactions to those addressed to the proxy or implementation contract,
discards those without a successful receipt, and emits a `VoteInfo` per
qualifying transaction. -/

/-- `PROXY_ADDRESS` from `src/blockScanner.js` (lowercased at definition). -/
def PROXY_ADDRESS : String :=
  jsToLower "0x1E18cdce56B3754c4Dca34CB3a7439C24E8363de"

/-- `IMPLEMENTATION_ADDRESS` from `src/blockScanner.js`. -/
def IMPLEMENTATION_ADDRESS : String :=
  jsToLower "0x05b939069163891997C879288f0BaaC3faaf4500"

/-- `VOTE_METHOD_SIG` from `src/blockScanner.js`. -/
def VOTE_METHOD_SIG : String := "0xc7b8896b"

/-- An EVM transaction as consumed by the scanner (`tx.to` may be `null`;
`tx.value` is a BigInt amount in wei; `tx.data` the calldata hex string). -/
structure Transaction where
  hash : String
  toAddr : Option String
  value : ℤ
  data : String
  fromAddr : String
deriving DecidableEq

/-- A receipt log entry (`log.address` may be absent). -/
structure LogEntry where
  address : Option String
deriving DecidableEq

/-- A transaction receipt (`receipt.status` is `1` on success). -/
structure Receipt where
  status : ℤ
  logs : List LogEntry
deriving DecidableEq

/-- Signal 1 of `isVoteTransaction`: direct nonzero-value transfer to the
proxy (`tx.to && tx.to.toLowerCase() === PROXY_ADDRESS && tx.value > 0n`). -/
def isDirectTransfer (tx : Transaction) : Bool :=
  match tx.toAddr with
  | some t => jsToLower t == PROXY_ADDRESS && decide (0 < tx.value)
  | none => false

/-- Signal 2: call to the proxy whose calldata starts with the vote method
selector.  (In JS an empty `tx.data` short-circuits the `&&` as falsy; an
empty string never has the selector as a start, so the guard is redundant.) -/
def isMethodCall (tx : Transaction) : Bool :=
  match tx.toAddr with
  | some t => jsToLower t == PROXY_ADDRESS && strStartsWith tx.data VOTE_METHOD_SIG
  | none => false

/-- Signal 3: some receipt log was emitted by the implementation contract. -/
def hasImplLogs (receipt : Receipt) : Bool :=
  receipt.logs.any (fun log =>
    match log.address with
    | some a => jsToLower a == IMPLEMENTATION_ADDRESS
    | none => false)

/-- Signal 4: some receipt log was emitted by the proxy contract. -/
def hasProxyLogs (receipt : Receipt) : Bool :=
  receipt.logs.any (fun log =>
    match log.address with
    | some a => jsToLower a == PROXY_ADDRESS
    | none => false)

/-- `isVoteTransaction` from `src/blockScanner.js`: ANY of the four signals
classifies the pair as a vote. -/
def isVoteTransaction (tx : Transaction) (receipt : Receipt) : Bool :=
  isDirectTransfer tx || isMethodCall tx || hasImplLogs receipt || hasProxyLogs receipt

/-- The audit tags recorded by `isVoteTransaction`, in source order. -/
def detectionMethodTags (tx : Transaction) (receipt : Receipt) : List String :=
  (if isDirectTransfer tx then ["direct-transfer"] else []) ++
  (if isMethodCall tx then ["method-call"] else []) ++
  (if hasImplLogs receipt then ["impl-logs"] else []) ++
  (if hasProxyLogs receipt then ["proxy-logs"] else [])

/-- The comma-joined `detectionMethod` string (`'none'` when no tag fired). -/
def detectionMethod (tx : Transaction) (receipt : Receipt) : String :=
  if detectionMethodTags tx receipt = [] then "none"
  else String.intercalate "," (detectionMethodTags tx receipt)

/-- The first detection signal, stated declaratively (spec side). -/
def DirectTransferSignal (tx : Transaction) : Prop :=
  ∃ t, tx.toAddr = some t ∧ jsToLower t = PROXY_ADDRESS ∧ 0 < tx.value

/-- The second detection signal, stated declaratively (spec side). -/
def MethodCallSignal (tx : Transaction) : Prop :=
  ∃ t, tx.toAddr = some t ∧ jsToLower t = PROXY_ADDRESS ∧
    strStartsWith tx.data VOTE_METHOD_SIG = true

/-- The third detection signal, stated declaratively (spec side). -/
def ImplLogSignal (receipt : Receipt) : Prop :=
  ∃ log, log ∈ receipt.logs ∧
    ∃ a, log.address = some a ∧ jsToLower a = IMPLEMENTATION_ADDRESS

/-- The fourth detection signal, stated declaratively (spec side). -/
def ProxyLogSignal (receipt : Receipt) : Prop :=
  ∃ log, log ∈ receipt.logs ∧
    ∃ a, log.address = some a ∧ jsToLower a = PROXY_ADDRESS

theorem isDirectTransfer_iff (tx : Transaction) :
    isDirectTransfer tx = true ↔ DirectTransferSignal tx := by
  unfold isDirectTransfer DirectTransferSignal
  cases tx.toAddr with
  | none => simp
  | some t => simp [beq_iff_eq, and_assoc]

theorem isMethodCall_iff (tx : Transaction) :
    isMethodCall tx = true ↔ MethodCallSignal tx := by
  unfold isMethodCall MethodCallSignal
  cases tx.toAddr with
  | none => simp
  | some t => simp [beq_iff_eq, and_assoc]

theorem hasImplLogs_iff (receipt : Receipt) :
    hasImplLogs receipt = true ↔ ImplLogSignal receipt := by
  unfold hasImplLogs ImplLogSignal
  rw [List.any_eq_true]
  constructor
  · rintro ⟨log, hmem, hlog⟩
    cases ha : log.address with
    | none => rw [ha] at hlog; exact absurd hlog (by simp)
    | some a =>
      rw [ha] at hlog
      exact ⟨log, hmem, a, ha, beq_iff_eq.mp hlog⟩
  · rintro ⟨log, hmem, a, ha, heq⟩
    exact ⟨log, hmem, by rw [ha]; exact beq_iff_eq.mpr heq⟩

theorem hasProxyLogs_iff (receipt : Receipt) :
    hasProxyLogs receipt = true ↔ ProxyLogSignal receipt := by
  unfold hasProxyLogs ProxyLogSignal
  rw [List.any_eq_true]
  constructor
  · rintro ⟨log, hmem, hlog⟩
    cases ha : log.address with
    | none => rw [ha] at hlog; exact absurd hlog (by simp)
    | some a =>
      rw [ha] at hlog
      exact ⟨log, hmem, a, ha, beq_iff_eq.mp hlog⟩
  · rintro ⟨log, hmem, a, ha, heq⟩
    exact ⟨log, hmem, by rw [ha]; exact beq_iff_eq.mpr heq⟩

/-- **C6.** Vote classification is the union of the four independent
detection signals: a (transaction, receipt) pair is classified a vote iff at
least one signal holds; in particular a pair satisfying none of the signals
is not classified a vote. -/
theorem isVoteTransaction_union (tx : Transaction) (receipt : Receipt) :
    (isVoteTransaction tx receipt = true ↔
      DirectTransferSignal tx ∨ MethodCallSignal tx ∨ ImplLogSignal receipt ∨
        ProxyLogSignal receipt) ∧
    ((¬ DirectTransferSignal tx ∧ ¬ MethodCallSignal tx ∧
      ¬ ImplLogSignal receipt ∧ ¬ ProxyLogSignal receipt) →
      isVoteTransaction tx receipt = false) := by
  have hiff : isVoteTransaction tx receipt = true ↔
      DirectTransferSignal tx ∨ MethodCallSignal tx ∨ ImplLogSignal receipt ∨
        ProxyLogSignal receipt := by
    unfold isVoteTransaction
    rw [Bool.or_eq_true, Bool.or_eq_true, Bool.or_eq_true,
      isDirectTransfer_iff, isMethodCall_iff, hasImplLogs_iff, hasProxyLogs_iff]
    tauto
  refine ⟨hiff, fun ⟨h1, h2, h3, h4⟩ => ?_⟩
  rw [Bool.eq_false_iff]
  intro htrue
  rcases hiff.mp htrue with h | h | h | h
  · exact h1 h
  · exact h2 h
  · exact h3 h
  · exact h4 h

/-- A transaction satisfying exactly the direct-transfer signal, used to
witness `isVoteTransaction_union`. -/
def sampleTxC6 : Transaction where
  hash := "0xt1"
  toAddr := some "0x1E18cdce56B3754c4Dca34CB3a7439C24E8363de"
  value := 50
  data := "0x"
  fromAddr := "0xvoter"

/-- Closed witness for `isVoteTransaction_union`: a pair satisfying exactly
one signal (a nonzero direct transfer, empty receipt logs) is classified a
vote, and a pair satisfying no signal is not. -/
theorem isVoteTransaction_union_witness :
    isVoteTransaction sampleTxC6 ⟨1, []⟩ = true ∧
    isVoteTransaction { sampleTxC6 with value := 0 } ⟨1, []⟩ = false := by
  constructor
  · exact (isVoteTransaction_union sampleTxC6 ⟨1, []⟩).1.mpr
      (Or.inl ⟨"0x1E18cdce56B3754c4Dca34CB3a7439C24E8363de", rfl, by decide⟩)
  · exact (isVoteTransaction_union { sampleTxC6 with value := 0 } ⟨1, []⟩).2
      ⟨by rintro ⟨t, ht, _, hv⟩; cases ht; exact absurd hv (by decide),
       by rintro ⟨t, ht, _, hd⟩; cases ht; exact absurd hd (by decide),
       by rintro ⟨log, hmem, _⟩; simp at hmem,
       by rintro ⟨log, hmem, _⟩; simp at hmem⟩

/-! ## Scanner emission (`processBlockRange`, `src/blockScanner.js`) -/

/-- A block with its transactions, as consumed by `processBlockRange`. -/
structure BlockData where
  number : ℤ
  timestamp : ℤ
  transactions : List Transaction
deriving DecidableEq

/-- The candidate record emitted per qualifying transaction
(`voteInfo` in `processBlockRange`). -/
structure VoteInfo where
  transactionHash : String
  blockNumber : ℤ
  fromAddr : String
  toAddr : Option String
  voteAmount : ℚ
  timestamp : ℤ
  method : String
  success : Bool
deriving DecidableEq

/-- The pre-filter of `processBlockRange`: transactions addressed to the
proxy, or to the implementation with nonempty calldata
(`tx.data.length > 2`, i.e. longer than the bare `0x`). -/
def potentialVote (proxyAddress implAddress : String) (tx : Transaction) : Bool :=
  match tx.toAddr with
  | some t => jsToLower t == proxyAddress ||
      (jsToLower t == implAddress && decide (2 < tx.data.length))
  | none => false

/-- The `voteInfo` object built for a qualifying transaction
(`voteAmount` is the wei value rendered in whole tokens). -/
def mkVoteInfo (b : BlockData) (tx : Transaction) (receipt : Receipt) : VoteInfo where
  transactionHash := tx.hash
  blockNumber := b.number
  fromAddr := tx.fromAddr
  toAddr := tx.toAddr
  voteAmount := (tx.value : ℚ) / 1000000000000000000
  timestamp := b.timestamp
  method := detectionMethod tx receipt
  success := true

/-- Per-block body of `processBlockRange`: filter to potential votes, fetch
the receipt (`none` = absent or the fetch failed), skip failed transactions
(`!receipt || receipt.status !== 1`), classify, and emit. -/
def processBlock (proxyAddress implAddress : String)
    (getReceipt : String → Option Receipt) (b : BlockData) : List VoteInfo :=
  (b.transactions.filter (potentialVote proxyAddress implAddress)).filterMap
    (fun tx =>
      match getReceipt tx.hash with
      | none => none
      | some receipt =>
        if receipt.status = 1 then
          if isVoteTransaction tx receipt then some (mkVoteInfo b tx receipt)
          else none
        else none)

/-- `processBlockRange` over its block list, emitting candidates in block
order. -/
def processBlockRange (proxyAddress implAddress : String)
    (getReceipt : String → Option Receipt) : List BlockData → List VoteInfo
  | [] => []
  | b :: rest => processBlock proxyAddress implAddress getReceipt b ++
      processBlockRange proxyAddress implAddress getReceipt rest

/-- **C7.** Every candidate emitted by the scanner has a present and
successful receipt: a transaction whose receipt is absent or has
`status ≠ 1` is never emitted. -/
theorem processBlockRange_success_only (proxyAddress implAddress : String)
    (getReceipt : String → Option Receipt) (blocks : List BlockData)
    (vi : VoteInfo)
    (hmem : vi ∈ processBlockRange proxyAddress implAddress getReceipt blocks) :
    ∃ receipt, getReceipt vi.transactionHash = some receipt ∧
      receipt.status = 1 := by
  induction blocks with
  | nil => exact absurd hmem (List.not_mem_nil _)
  | cons b rest ih =>
    rw [processBlockRange] at hmem
    rcases List.mem_append.mp hmem with hb | hr
    · obtain ⟨tx, _, htx⟩ := List.mem_filterMap.mp hb
      cases hrec : getReceipt tx.hash with
      | none => rw [hrec] at htx; exact absurd htx (by simp)
      | some receipt =>
        rw [hrec] at htx
        have htx' : (if receipt.status = 1 then
            (if isVoteTransaction tx receipt = true then
              some (mkVoteInfo b tx receipt) else none)
            else none) = some vi := htx
        by_cases hst : receipt.status = 1
        · rw [if_pos hst] at htx'
          by_cases hiv : isVoteTransaction tx receipt = true
          · rw [if_pos hiv] at htx'
            have hv : vi = mkVoteInfo b tx receipt := (Option.some.inj htx').symm
            refine ⟨receipt, ?_, hst⟩
            rw [hv]
            exact hrec
          · rw [if_neg hiv] at htx'; exact absurd htx' (by simp)
        · rw [if_neg hst] at htx'; exact absurd htx' (by simp)
    · exact ih hr

/-- A transaction used to witness `processBlockRange_success_only`. -/
def sampleTxC7 : Transaction where
  hash := "0xt1"
  toAddr := some "0x1E18cdce56B3754c4Dca34CB3a7439C24E8363de"
  value := 50
  data := "0x"
  fromAddr := "0xvoter"

/-- A successful receipt for `sampleTxC7`. -/
def sampleReceiptC7 : Receipt := ⟨1, []⟩

/-- A block containing exactly `sampleTxC7`. -/
def sampleBlockC7 : BlockData := ⟨1000, 1700000000, [sampleTxC7]⟩

/-- A receipt oracle returning `sampleReceiptC7` for `sampleTxC7`. -/
def sampleGetReceiptC7 : String → Option Receipt :=
  fun h => if h = "0xt1" then some sampleReceiptC7 else none

/-- Closed witness for `processBlockRange_success_only` at a concrete scan:
one block containing one successful direct-transfer vote. -/
theorem processBlockRange_success_only_witness :
    ∃ receipt,
      sampleGetReceiptC7
        ((mkVoteInfo sampleBlockC7 sampleTxC7 sampleReceiptC7).transactionHash) =
        some receipt ∧ receipt.status = 1 := by
  refine processBlockRange_success_only PROXY_ADDRESS IMPLEMENTATION_ADDRESS
    sampleGetReceiptC7 [sampleBlockC7]
    (mkVoteInfo sampleBlockC7 sampleTxC7 sampleReceiptC7) ?_
  have hlist : processBlockRange PROXY_ADDRESS IMPLEMENTATION_ADDRESS
      sampleGetReceiptC7 [sampleBlockC7] =
      [mkVoteInfo sampleBlockC7 sampleTxC7 sampleReceiptC7] := rfl
  rw [hlist]
  exact List.mem_singleton.mpr rfl

/-! ## The address cache and `convertCosmosToEvm`
(`src/cache.js`, `src/walletBalances.js`)

The `Cache` class defines the methods `has`, `get`, `set`, `clear`, `size`,
`limitSize` and `getStats` — and no `entries`.  The `Method 2` fallback of
`convertCosmosToEvm` iterates `addressCache.entries()`; JS method dispatch on
a missing member throws a `TypeError` before the loop body can run, so the
scan over existing forward mappings is unreachable. -/

/-- The method names defined by the `Cache` class in `src/cache.js`. -/
def cacheClassMethods : List String :=
  ["has", "get", "set", "clear", "size", "limitSize", "getStats"]

/-- JS dynamic method dispatch: invoking a missing method of an object
throws a `TypeError` without running the would-be body. -/
def jsCallMethod {α : Type} (methods : List String) (methodName : String)
    (body : Unit → Except String α) : Except String α :=
  if methodName ∈ methods then body ()
  else Except.error ("TypeError: " ++ methodName ++ " is not a function")

/-- The body of the `Method 2` fallback of `convertCosmosToEvm`: scan the
forward address cache for an entry mapping some EVM address to this cosmos
address; reject when no mapping exists. -/
def scanForwardMappings (forwardEntries : List (String × String))
    (cosmosAddress : String) : Except String String :=
  match forwardEntries.find? (fun p => p.2 == cosmosAddress) with
  | some p => Except.ok p.1
  | none =>
    Except.error ("Could not convert Cosmos address " ++ cosmosAddress ++
      " to EVM address")

/-- `convertCosmosToEvm` from `src/walletBalances.js`: reverse-cache hit
first; then the reverse-lookup API (`some` = 2xx response carrying a
`result`, `none` = thrown/timeout/no-result, all of which fall through);
then the fallback scan over `addressCache.entries()`, dispatched through the
`Cache` class's method table. -/
def convertCosmosToEvm (reverseCached : Option String) (apiResult : Option String)
    (forwardEntries : List (String × String)) (cosmosAddress : String) :
    Except String String :=
  match reverseCached with
  | some cachedAddress => Except.ok cachedAddress
  | none =>
    match apiResult with
    | some evmAddress => Except.ok (jsToLower evmAddress)
    | none =>
      jsCallMethod cacheClassMethods "entries"
        (fun _ => scanForwardMappings forwardEntries cosmosAddress)

/-- **C10.** When the reverse-lookup API fails or returns no result and the
reverse cache misses, `convertCosmosToEvm` always throws: the `Cache` class
defines no `entries` method, so the fallback scan can never find and return
an address — even when the forward cache holds a matching mapping. -/
theorem convertCosmosToEvm_fallback_throws (reverseCached apiResult : Option String)
    (forwardEntries : List (String × String)) (cosmosAddress : String)
    (hrc : reverseCached = none) (hapi : apiResult = none) :
    convertCosmosToEvm reverseCached apiResult forwardEntries cosmosAddress =
      Except.error "TypeError: entries is not a function" ∧
    "entries" ∉ cacheClassMethods := by
  subst hrc hapi
  refine ⟨?_, by decide⟩
  unfold convertCosmosToEvm jsCallMethod
  rw [if_neg (by decide)]
  rfl

/-- Closed witness for `convertCosmosToEvm_fallback_throws`: the forward
cache holds the exact mapping, yet the call still throws. -/
theorem convertCosmosToEvm_fallback_throws_witness :
    convertCosmosToEvm none none [("0xaa", "sei1xyz")] "sei1xyz" =
      Except.error "TypeError: entries is not a function" ∧
    "entries" ∉ cacheClassMethods :=
  convertCosmosToEvm_fallback_throws none none [("0xaa", "sei1xyz")] "sei1xyz"
    rfl rfl

/-! ## Checkpoint persistence
(`scanBlockRangeForVotes`, `src/blockScanner.js`; `handleNewVote`,
`src/index.js`)

Two code paths write the `last_processed_block` checkpoint file.  The
historical scanner keeps a local `lastProcessedBlock`, raises it to the
maximum completed batch end after each window of concurrent batches
(`lastProcessedBlock = Math.max(lastProcessedBlock, lastBatchEnd)`), and
periodically writes that variable.  The live-monitor callback
`handleNewVote` writes the incoming vote's own block number
(`saveLastProcessedBlock(vote.blockNumber)`) with no comparison against
previously persisted values.  `saveDue` models the save-interval timer
gating each write. -/

/-- A checkpoint-writing event. -/
inductive CheckpointEvent where
  | scanWindow (batchEnds : List ℤ) (saveDue : Bool)
  | liveVote (blockNumber : ℤ) (saveDue : Bool)
deriving DecidableEq

/-- Scanner-local state plus the chronological log of persisted values. -/
structure CheckpointState where
  lastProcessedBlock : ℤ
  writes : List ℤ
deriving DecidableEq

/-- Effect of one event on the checkpoint state. -/
def checkpointStep (s : CheckpointState) : CheckpointEvent → CheckpointState
  | .scanWindow batchEnds saveDue =>
    let last := batchEnds.foldl max s.lastProcessedBlock
    { lastProcessedBlock := last,
      writes := if saveDue then s.writes ++ [last] else s.writes }
  | .liveVote blockNumber saveDue =>
    { s with writes := if saveDue then s.writes ++ [blockNumber] else s.writes }

/-- A run of checkpoint events; `lastProcessedBlock` starts at
`fromBlock - 1` as in `scanBlockRangeForVotes`. -/
def checkpointRun (fromBlock : ℤ) (events : List CheckpointEvent) :
    CheckpointState :=
  events.foldl checkpointStep ⟨fromBlock - 1, []⟩

/-- Recognizer for scanner-window events. -/
def isScanWindowEvent : CheckpointEvent → Bool
  | .scanWindow _ _ => true
  | .liveVote _ _ => false

/-- **C5 counterexample.** The claim "every write of the last-processed-block
value is at least every value previously written, for any sequence of chunk
completions including the live-monitor vote callback path" is false: after a
scan window persists 100, a live-vote callback for block 50 persists 50. -/
theorem checkpoint_monotone_claim_false :
    ¬ (∀ (fromBlock : ℤ) (events : List CheckpointEvent),
        List.Pairwise (· ≤ ·) (checkpointRun fromBlock events).writes) := by
  intro hclaim
  have h := hclaim 0
    [CheckpointEvent.scanWindow [100] true, CheckpointEvent.liveVote 50 true]
  have hw : (checkpointRun 0
      [CheckpointEvent.scanWindow [100] true,
       CheckpointEvent.liveVote 50 true]).writes = [100, 50] := by decide
  rw [hw] at h
  have h2 := (List.pairwise_cons.mp h).1 50 (List.mem_singleton.mpr rfl)
  exact absurd h2 (by decide)

theorem le_foldl_max (l : List ℤ) : ∀ a : ℤ, a ≤ l.foldl max a := by
  induction l with
  | nil => intro a; exact le_refl a
  | cons x rest ih =>
    intro a
    exact le_trans (le_max_left a x) (ih (max a x))

/-- **C5 (amended).** Writes performed by the historical scanner's
chunk-completion path alone never decrease: `lastProcessedBlock` only ever
rises to the maximum completed batch end, so each persisted value is at
least every value persisted before it.  (The live-monitor callback path is
excluded; see `checkpoint_monotone_claim_false`.) -/
theorem scan_checkpoint_monotone (fromBlock : ℤ) (events : List CheckpointEvent)
    (hscan : events.all isScanWindowEvent = true) :
    List.Pairwise (· ≤ ·) (checkpointRun fromBlock events).writes := by
  suffices hgen : ∀ (evs : List CheckpointEvent) (s : CheckpointState),
      evs.all isScanWindowEvent = true →
      (∀ w ∈ s.writes, w ≤ s.lastProcessedBlock) →
      List.Pairwise (· ≤ ·) s.writes →
      List.Pairwise (· ≤ ·) (evs.foldl checkpointStep s).writes by
    exact hgen events ⟨fromBlock - 1, []⟩ hscan (by simp) (by simp)
  intro evs
  induction evs with
  | nil => intro s _ _ hsorted; exact hsorted
  | cons e rest ih =>
    intro s hall hbound hsorted
    rw [List.all_cons, Bool.and_eq_true] at hall
    cases e with
    | liveVote b due => exact absurd hall.1 (by simp [isScanWindowEvent])
    | scanWindow batchEnds saveDue =>
      rw [List.foldl_cons]
      apply ih _ hall.2
      · intro w hw
        simp only [checkpointStep] at hw ⊢
        cases saveDue with
        | true =>
          rw [if_pos rfl] at hw
          rcases List.mem_append.mp hw with hold | hnew
          · exact le_trans (hbound w hold) (le_foldl_max _ _)
          · rw [List.mem_singleton.mp hnew]
        | false =>
          rw [if_neg (by simp)] at hw
          exact le_trans (hbound w hw) (le_foldl_max _ _)
      · simp only [checkpointStep]
        cases saveDue with
        | true =>
          rw [if_pos rfl]
          rw [List.pairwise_append]
          refine ⟨hsorted, List.pairwise_singleton _ _, ?_⟩
          intro w hw w' hw'
          rw [List.mem_singleton.mp hw']
          exact le_trans (hbound w hw) (le_foldl_max _ _)
        | false =>
          rw [if_neg (by simp)]
          exact hsorted

/-- Closed witness for `scan_checkpoint_monotone`: two scan windows
persisting 100 then 150. -/
theorem scan_checkpoint_monotone_witness :
    List.Pairwise (· ≤ ·) (checkpointRun 0
      [CheckpointEvent.scanWindow [100] true,
       CheckpointEvent.scanWindow [80, 150] true]).writes :=
  scan_checkpoint_monotone 0
    [CheckpointEvent.scanWindow [100] true,
     CheckpointEvent.scanWindow [80, 150] true] (by decide)

/-! ## The block-time locator (`src/findStartBlock.js`)

Times are in milliseconds; the chain is an oracle `ts : ℤ → ℤ` giving each
height's block timestamp.  `findStartBlock` estimates a height from the
400 ms average block time, binary-searches a ±5000-block window around the
estimate — returning a probed block immediately when its timestamp is within
1 second of the target — and otherwise hands the closest block found to the
linear refinement `findExactBlockNearTarget`.  The JS `while` loops always
terminate on a real chain; they are given fuel here, and every concrete run
below supplies fuel exceeding the iterations actually used. -/

/-- The binary-search loop of `findStartBlock` (lines 57–82): track the
closest block seen (`closestDiff` starts as `Infinity`, modelled `none`),
return the probed block (`Sum.inl`) when within 1000 ms of the target, else
narrow the bracket; on bracket exhaustion return the closest block
(`Sum.inr`). -/
def binarySearchLoop (ts : ℤ → ℤ) (target : ℤ) :
    ℕ → ℤ → ℤ → ℤ → Option ℤ → ℤ ⊕ ℤ
  | 0, _, _, closestBlock, _ => .inr closestBlock
  | fuel + 1, lowerBound, upperBound, closestBlock, closestDiff =>
    if upperBound < lowerBound then .inr closestBlock
    else
      let midBlock := (lowerBound + upperBound).fdiv 2
      let diffMs := (ts midBlock - target).natAbs
      let isCloser : Bool := match closestDiff with
        | none => true
        | some d => decide ((diffMs : ℤ) < d)
      let closestBlock' := if isCloser then midBlock else closestBlock
      let closestDiff' := if isCloser then some (diffMs : ℤ) else closestDiff
      if diffMs < 1000 then .inl midBlock
      else if ts midBlock < target then
        binarySearchLoop ts target fuel (midBlock + 1) upperBound
          closestBlock' closestDiff'
      else
        binarySearchLoop ts target fuel lowerBound (midBlock - 1)
          closestBlock' closestDiff'

/-- The forward loop of `findExactBlockNearTarget` (lines 118–124):
`while (blockTime < target) searchBlock++`, returning the first block at or
after the target scanning upward. -/
def forwardScan (ts : ℤ → ℤ) (target : ℤ) : ℕ → ℤ → Option ℤ
  | 0, searchBlock =>
    if target ≤ ts searchBlock then some searchBlock else none
  | fuel + 1, searchBlock =>
    if target ≤ ts searchBlock then some searchBlock
    else forwardScan ts target fuel (searchBlock + 1)

/-- The backward loop of `findExactBlockNearTarget` (lines 130–137):
`while (blockTime >= target && searchBlock > 0) searchBlock--`, then return
`searchBlock + 1`. -/
def backwardScan (ts : ℤ → ℤ) (target : ℤ) : ℕ → ℤ → Option ℤ
  | 0, searchBlock =>
    if target ≤ ts searchBlock ∧ 0 < searchBlock then none
    else some (searchBlock + 1)
  | fuel + 1, searchBlock =>
    if target ≤ ts searchBlock ∧ 0 < searchBlock then
      backwardScan ts target fuel (searchBlock - 1)
    else some (searchBlock + 1)

/-- `findExactBlockNearTarget` from `src/findStartBlock.js`: move forward
from a block before the target, backward from a block at/after it. -/
def findExactBlockNearTarget (ts : ℤ → ℤ) (approximateBlock target : ℤ)
    (fuel : ℕ) : Option ℤ :=
  if ts approximateBlock < target then
    forwardScan ts target fuel (approximateBlock + 1)
  else backwardScan ts target fuel approximateBlock

/-- `findStartBlock` from `src/findStartBlock.js`: estimate from the 400 ms
average block time (`Math.floor` is `Int.fdiv`), clamp to `≥ 0`, binary
search a ±5000-block window, and refine the closest block found unless the
search already returned a block within 1 second of the target. -/
def findStartBlock (ts : ℤ → ℤ) (currentBlockNumber target : ℤ)
    (searchFuel scanFuel : ℕ) : Option ℤ :=
  let currentBlockTime := ts currentBlockNumber
  let blockDiff := (target - currentBlockTime).fdiv 400
  let estimatedBlock := max 0 (currentBlockNumber + blockDiff)
  let lowerBound := max 0 (estimatedBlock - 5000)
  let upperBound := estimatedBlock + 5000
  match binarySearchLoop ts target searchFuel lowerBound upperBound
      estimatedBlock none with
  | .inl found => some found
  | .inr closest => findExactBlockNearTarget ts closest target scanFuel

/-- **C4 counterexample.** The locator ceiling property fails as stated: on
the regular chain `ts b = 2000·b` with head 10 and target 10500 (inside the
recorded range), the binary search probes block 5, whose timestamp 10000 is
within 1 second of the target, and returns it — but 10000 < 10500, so the
returned block is strictly before the target. -/
theorem findStartBlock_ceiling_counterexample :
    ¬ (∀ (ts : ℤ → ℤ) (head target : ℤ) (searchFuel scanFuel : ℕ) (h : ℤ),
        Monotone ts → ts 0 ≤ target → target ≤ ts head →
        findStartBlock ts head target searchFuel scanFuel = some h →
        target ≤ ts h ∧ (0 < h → ts (h - 1) < target)) := by
  intro hclaim
  have hmono : Monotone (fun b : ℤ => 2000 * b) := by
    intro a b hab
    simpa using mul_le_mul_of_nonneg_left hab (by norm_num : (0:ℤ) ≤ 2000)
  have heval : findStartBlock (fun b : ℤ => 2000 * b) 10 10500 100 100 =
      some 5 := by decide
  have hh := hclaim (fun b : ℤ => 2000 * b) 10 10500 100 100 5 hmono
    (by decide) (by decide) heval
  exact absurd hh.1 (by decide)

theorem forwardScan_spec (ts : ℤ → ℤ) (target : ℤ) :
    ∀ (fuel : ℕ) (b : ℤ), ts (b - 1) < target → target ≤ ts (b + fuel) →
    ∃ h, forwardScan ts target fuel b = some h ∧ target ≤ ts h ∧
      ts (h - 1) < target ∧ b ≤ h := by
  intro fuel
  induction fuel with
  | zero =>
    intro b hprev hend
    have hb : target ≤ ts b := by simpa using hend
    rw [forwardScan, if_pos hb]
    exact ⟨b, rfl, hb, hprev, le_refl b⟩
  | succ fuel ih =>
    intro b hprev hend
    rw [forwardScan]
    by_cases hb : target ≤ ts b
    · rw [if_pos hb]
      exact ⟨b, rfl, hb, hprev, le_refl b⟩
    · rw [if_neg hb]
      have hprev' : ts (b + 1 - 1) < target := by
        rw [add_sub_cancel_right]
        exact not_le.mp hb
      have hend' : target ≤ ts (b + 1 + fuel) := by
        have harg : b + 1 + (fuel : ℤ) = b + ((fuel : ℤ) + 1) := by ring
        rw [harg]
        have harg2 : b + ((fuel : ℤ) + 1) = b + ((fuel + 1 : ℕ) : ℤ) := by
          push_cast
          ring
        rw [harg2]
        exact hend
      obtain ⟨h, heq, h1, h2, h3⟩ := ih (b + 1) hprev' hend'
      exact ⟨h, heq, h1, h2, by omega⟩

theorem backwardScan_exit (ts : ℤ → ℤ) (target : ℤ) (fuel : ℕ) (b : ℤ)
    (hcond : ¬ (target ≤ ts b ∧ 0 < b)) :
    backwardScan ts target fuel b = some (b + 1) := by
  cases fuel with
  | zero => rw [backwardScan, if_neg hcond]
  | succ fuel => rw [backwardScan, if_neg hcond]

theorem backwardScan_spec (ts : ℤ → ℤ) (target : ℤ) (h0 : ts 0 < target) :
    ∀ (fuel : ℕ) (b : ℤ), 0 ≤ b → b.toNat ≤ fuel → target ≤ ts b →
    ∃ h, backwardScan ts target fuel b = some h ∧ target ≤ ts h ∧
      ts (h - 1) < target ∧ 0 < h := by
  intro fuel
  induction fuel with
  | zero =>
    intro b hb0 hfuel hts
    have hb : b = 0 := by omega
    subst hb
    exact absurd hts (not_le.mpr h0)
  | succ fuel ih =>
    intro b hb0 hfuel hts
    by_cases hpos : 0 < b
    · rw [backwardScan, if_pos ⟨hts, hpos⟩]
      by_cases hts' : target ≤ ts (b - 1)
      · exact ih (b - 1) (by omega) (by omega) hts'
      · rw [backwardScan_exit ts target fuel (b - 1) (fun hc => hts' hc.1)]
        have hb1 : b - 1 + 1 = b := by omega
        rw [hb1]
        exact ⟨b, rfl, hts, not_le.mp hts', hpos⟩
    · have hb : b = 0 := by omega
      subst hb
      exact absurd hts (not_le.mpr h0)

/-- **C4 (amended).** The final linear refinement `findExactBlockNearTarget`
does satisfy the ceiling property: for a target strictly after the genesis
timestamp, reachable within the given fuel, it returns a height `h > 0` with
`ts h ≥ target` and `ts (h-1) < target`.  The full `findStartBlock` inherits
this except when the binary search's 1-second early return fires, in which
case the returned block's timestamp may precede the target by up to 1 s
(see `findStartBlock_ceiling_counterexample`). -/
theorem findExactBlockNearTarget_ceiling (ts : ℤ → ℤ)
    (approximateBlock target : ℤ) (fuel : ℕ)
    (h0 : ts 0 < target) (hpos : 0 ≤ approximateBlock)
    (hfwd : target ≤ ts (approximateBlock + 1 + fuel))
    (hbwd : approximateBlock.toNat ≤ fuel) :
    ∃ h, findExactBlockNearTarget ts approximateBlock target fuel = some h ∧
      target ≤ ts h ∧ ts (h - 1) < target ∧ 0 < h := by
  unfold findExactBlockNearTarget
  by_cases happ : ts approximateBlock < target
  · rw [if_pos happ]
    have hprev : ts (approximateBlock + 1 - 1) < target := by
      rw [add_sub_cancel_right]
      exact happ
    obtain ⟨h, heq, h1, h2, h3⟩ := forwardScan_spec ts target fuel
      (approximateBlock + 1) hprev hfwd
    exact ⟨h, heq, h1, h2, by omega⟩
  · rw [if_neg happ]
    exact backwardScan_spec ts target h0 fuel approximateBlock hpos hbwd
      (not_lt.mp happ)

/-- Closed witness for `findExactBlockNearTarget_ceiling`: on `ts b = 2000·b`
with target 10500 and approximate block 5, the refinement returns block 6,
the first block at or after the target. -/
theorem findExactBlockNearTarget_ceiling_witness :
    ∃ h, findExactBlockNearTarget (fun b : ℤ => 2000 * b) 5 10500 10 = some h ∧
      (10500 : ℤ) ≤ (fun b : ℤ => 2000 * b) h ∧
      (fun b : ℤ => 2000 * b) (h - 1) < 10500 ∧ 0 < h :=
  findExactBlockNearTarget_ceiling (fun b : ℤ => 2000 * b) 5 10500 10
    (by decide) (by decide) (by decide) (by decide)

/-- **C8.** Evaluation at the failing input: for the target 22500, strictly
later than the head block's timestamp 20000 on the chain `ts b = 2000·b`
with head 10, `findStartBlock` runs its estimate and binary search anyway
and returns block 11, not the head height — the cited code has no
future-target early return (the sibling draft in `src/unnamed/part_003`
does: `if (targetDate > currentBlockTime) return currentBlockNumber`). -/
theorem findStartBlock_future_target_eval :
    (fun b : ℤ => 2000 * b) 10 < 22500 ∧
    findStartBlock (fun b : ℤ => 2000 * b) 10 22500 100 100 = some 11 ∧
    (11 : ℤ) ≠ 10 := by
  exact ⟨by decide, by decide, by decide⟩

end SeiVoter
